import Mathlib

/-!
Verification of the deep-harmonization style-transfer core
(src/deep-harmonization/app.py).

Feature maps are embedded as rational-valued tensors indexed by channel
and flattened spatial position (`Fin C → Fin N → ℚ`); masks are either
spatial (`Fin N → ℚ`) or channel-expanded to the shape of a feature map.
The pieces imported from `models.py` (absent from the sources:
`gram_matrix`, `patch_match`, `downsampling`, `cosine_similarity`) are
modelled from the specification and marked as such in their doc comments.
-/

namespace Harmonization

/-- Embedding of `torch.nn.functional.mse_loss` with the default `mean`
reduction: mean of squared entrywise differences. -/
def mse_loss {C N : ℕ} (a b : Fin C → Fin N → ℚ) : ℚ :=
  (∑ c, ∑ n, (a c n - b c n) ^ 2) / ((C : ℚ) * (N : ℚ))

/-- Modelled from the spec: `models.gram_matrix` is imported by app.py but
`models.py` is not among the sources.  Per the spec's glossary, the gram
matrix is the "matrix of channel-wise inner products of a feature map,
flattened spatially" (unnormalized; the normalization in `StyleLoss` is
explicit in app.py line 50). -/
def gram_matrix {C N : ℕ} (f : Fin C → Fin N → ℚ) : Fin C → Fin C → ℚ :=
  fun a b => ∑ n, f a n * f b n

/-- `tensor.sum()` over a channel-expanded mask: sum of all entries. -/
def maskSum {C N : ℕ} (m : Fin C → Fin N → ℚ) : ℚ :=
  ∑ c, ∑ n, m c n

/-- `mask.expand_as(target)` at the probe construction sites (app.py
lines 127 and 139): the single-channel spatial mask broadcast across all
`C` channels of the feature map. -/
def expand_as (C : ℕ) {N : ℕ} (m : Fin N → ℚ) : Fin C → Fin N → ℚ :=
  fun _ n => m n

/-- Embedding of the `ContentLoss` module (app.py lines 30-43): it stores
a mask, a detached target and the most recently computed loss value
(Python sets `self.loss` only in `forward`; here the field starts at 0). -/
structure ContentLoss (C N : ℕ) where
  mask : Fin C → Fin N → ℚ
  target : Fin C → Fin N → ℚ
  loss : ℚ

/-- `ContentLoss.__init__`: store the mask and the detached target. -/
def ContentLoss.init {C N : ℕ} (target mask : Fin C → Fin N → ℚ) :
    ContentLoss C N :=
  { mask := mask, target := target, loss := 0 }

/-- `ContentLoss.forward`: record
`self.loss = F.mse_loss(x * self.mask, self.target * self.mask)` and pass
`x` through unchanged.  The Python method mutates only `self.loss`; the
embedding returns the updated module state together with the output. -/
def ContentLoss.forward {C N : ℕ} (p : ContentLoss C N)
    (x : Fin C → Fin N → ℚ) : ContentLoss C N × (Fin C → Fin N → ℚ) :=
  ({ p with
      loss := mse_loss (fun c n => x c n * p.mask c n)
        (fun c n => p.target c n * p.mask c n) }, x)

/-- Embedding of the `StyleLoss` module (app.py lines 45-55): stores the
mask, the frozen (detached) gram-matrix target and the last loss value. -/
structure StyleLoss (C N : ℕ) where
  mask : Fin C → Fin N → ℚ
  target : Fin C → Fin C → ℚ
  loss : ℚ

/-- `StyleLoss.__init__` (app.py line 50):
`self.target = (gram_matrix(target_feature * self.mask).float() / self.mask.sum()).detach()`. -/
def StyleLoss.init {C N : ℕ} (target_feature mask : Fin C → Fin N → ℚ) :
    StyleLoss C N :=
  { mask := mask
    target := fun a b =>
      gram_matrix (fun c n => target_feature c n * mask c n) a b / maskSum mask
    loss := 0 }

/-- `StyleLoss.forward` (app.py lines 52-55): recompute the normalized gram
matrix of the masked input, record its MSE against the frozen target, and
pass `x` through unchanged. -/
def StyleLoss.forward {C N : ℕ} (p : StyleLoss C N)
    (x : Fin C → Fin N → ℚ) : StyleLoss C N × (Fin C → Fin N → ℚ) :=
  ({ p with
      loss := mse_loss
        (fun a b =>
          gram_matrix (fun c n => x c n * p.mask c n) a b / maskSum p.mask)
        p.target }, x)

/-- A single-channel mask tensor with explicit spatial dimensions; entries
are meaningful on `[0, h) × [0, w)`. -/
structure MaskT where
  h : ℕ
  w : ℕ
  val : ℕ → ℕ → ℚ

/-- Embedding of `torch.nn.functional.avg_pool2d` with square kernel `k`,
stride `s`, padding `p` and the default `count_include_pad = True`: output
size `(n + 2p - k) / s + 1` per dimension, each output entry the sum of
the `k × k` window over the zero-padded input divided by `k²`. -/
def avg_pool2d (k s p : ℕ) (M : MaskT) : MaskT :=
  { h := (M.h + 2 * p - k) / s + 1
    w := (M.w + 2 * p - k) / s + 1
    val := fun i j =>
      (∑ a ∈ Finset.range k, ∑ b ∈ Finset.range k,
        if p ≤ s * i + a ∧ s * i + a - p < M.h ∧ p ≤ s * j + b ∧ s * j + b - p < M.w
        then M.val (s * i + a - p) (s * j + b - p) else 0) / ((k : ℚ) * (k : ℚ)) }

/-- Modelled from the spec: `models.downsampling` is imported by app.py but
`models.py` is not among the sources.  Spec §4.1: crossing a pooling layer
halves spatial resolution "via an area/averaging downsample (factor 0.5)";
area interpolation at scale factor 0.5 averages each 2×2 input block into
one output entry. -/
def downsampling (M : MaskT) : MaskT :=
  { h := M.h / 2
    w := M.w / 2
    val := fun i j =>
      (M.val (2 * i) (2 * j) + M.val (2 * i) (2 * j + 1) +
        M.val (2 * i + 1) (2 * j) + M.val (2 * i + 1) (2 * j + 1)) / 4 }

/-- The layer kinds distinguished by the traversal in
`get_style_model_and_losses` (app.py lines 100-119): `Conv2d`, `ReLU`,
`MaxPool2d`, `BatchNorm2d`, and any other class (which raises). -/
inductive LayerTag where
  | conv : LayerTag
  | relu : LayerTag
  | pool : LayerTag
  | bn : LayerTag
  | other : String → LayerTag
deriving DecidableEq

/-- The mask update performed when the traversal crosses one layer
(app.py lines 104 and 113): convolution smooths with
`F.avg_pool2d(mask, 3, stride = 1, padding = 1)`, pooling applies
`downsampling(mask, scale_factor = 0.5)`, and the remaining branches
leave the mask untouched (an unrecognized layer raises before any mask
update, so the `other` case is never reached with a live mask). -/
def propagateMask : LayerTag → MaskT → MaskT
  | .conv, M => avg_pool2d 3 1 1 M
  | .pool, M => downsampling M
  | _, M => M

/-- Modelled from the spec: the smoothing-filter capability (§6 — "Gaussian
blur of a 2D array with a specified sigma", provided by scipy, external to
the repository) is embedded as correlation of the image with an arbitrary
finite kernel `w` of radius `R`; the truncated Gaussian kernel used at
sigma 3 is one instance.  Images are total functions on ℤ × ℤ. -/
def gaussian_filter (R : ℕ) (w : ℤ → ℤ → ℚ) (M : ℤ → ℤ → ℚ) : ℤ → ℤ → ℚ :=
  fun i j =>
    ∑ a ∈ Finset.Icc (-(R : ℤ)) R, ∑ b ∈ Finset.Icc (-(R : ℤ)) R,
      w a b * M (i + a) (j + b)

/-- The soft mask of app.py lines 260-261: the raw (0-255) mask is blurred
and then rescaled to `[0, 1]` by dividing by 255. -/
def soft_mask (R : ℕ) (w : ℤ → ℤ → ℚ) (raw : ℤ → ℤ → ℚ) : ℤ → ℤ → ℚ :=
  fun i j => gaussian_filter R w raw i j / 255

/-- The final blend of app.py line 266:
`output = tmask_img * output + (1 - tmask_img) * style_img`, pointwise. -/
def final_blend (tmask output style : ℤ → ℤ → ℚ) : ℤ → ℤ → ℚ :=
  fun i j => tmask i j * output i j + (1 - tmask i j) * style i j

/-- One module of the sequential model built by
`get_style_model_and_losses`: the prepended normalization, a named
feature-extractor layer, or an inserted loss probe.  The probe payloads
(targets, masks) are embedded separately as `ContentLoss`/`StyleLoss`;
here only the graph structure matters. -/
inductive GModule where
  | norm : GModule
  | layer : String → LayerTag → GModule
  | contentProbe : String → GModule
  | styleProbe : String → GModule
deriving DecidableEq

/-- The traversal state of `get_style_model_and_losses`: the block counter
`i` (incremented at every pooling layer), the in-block counter `j`
(incremented at every convolution, reset at every pooling layer), the
propagated mask, the growing module list, and the recorded probe names
(standing in for the `content_losses` / `style_losses` lists). -/
structure BuildState where
  i : ℕ
  j : ℕ
  mask : MaskT
  model : List GModule
  content_losses : List String
  style_losses : List String

/-- The probe-insertion steps of app.py lines 124-142: after appending a
layer named `name` (with updated counters `i'`, `j'`), a content probe is
appended when `name` is a registered content layer and a style probe when
it is a registered style layer; the probe module names use the updated
counters.  Returns the new module list and probe-name lists. -/
def addProbes (content_layers style_layers : List String) (i' j' : ℕ)
    (name : String) (model : List GModule) (cl sl : List String) :
    List GModule × List String × List String :=
  let model1 := if name ∈ content_layers then
    model ++ [GModule.contentProbe ("content_loss" ++ toString i' ++ "_" ++ toString j')]
    else model
  let cl1 := if name ∈ content_layers then cl ++ [name] else cl
  let model2 := if name ∈ style_layers then
    model1 ++ [GModule.styleProbe ("style_loss" ++ toString i' ++ "_" ++ toString j')]
    else model1
  let sl1 := if name ∈ style_layers then sl ++ [name] else sl
  (model2, cl1, sl1)

/-- Processing of a single feature-extractor layer in the traversal loop
(app.py lines 100-142): classify the layer, derive its canonical name
from the counters, update the mask, append the (for ReLU: out-of-place)
layer, then insert probes; an unrecognized layer raises
`RuntimeError('Unrecognized layer: ...')`. -/
def buildStep (content_layers style_layers : List String)
    (st : BuildState) : LayerTag → Except String BuildState
  | .conv =>
    let j' := st.j + 1
    let name := "conv" ++ toString st.i ++ "_" ++ toString j'
    let mask' := propagateMask .conv st.mask
    let model' := st.model ++ [GModule.layer name .conv]
    let r := addProbes content_layers style_layers st.i j' name model'
      st.content_losses st.style_losses
    .ok ⟨st.i, j', mask', r.1, r.2.1, r.2.2⟩
  | .relu =>
    let name := "relu" ++ toString st.i ++ "_" ++ toString st.j
    let model' := st.model ++ [GModule.layer name .relu]
    let r := addProbes content_layers style_layers st.i st.j name model'
      st.content_losses st.style_losses
    .ok ⟨st.i, st.j, st.mask, r.1, r.2.1, r.2.2⟩
  | .pool =>
    let name := "pool" ++ toString st.i ++ "_" ++ toString st.j
    let mask' := propagateMask .pool st.mask
    let i' := st.i + 1
    let model' := st.model ++ [GModule.layer name .pool]
    let r := addProbes content_layers style_layers i' 0 name model'
      st.content_losses st.style_losses
    .ok ⟨i', 0, mask', r.1, r.2.1, r.2.2⟩
  | .bn =>
    let name := "bn" ++ toString st.i ++ "_" ++ toString st.j
    let model' := st.model ++ [GModule.layer name .bn]
    let r := addProbes content_layers style_layers st.i st.j name model'
      st.content_losses st.style_losses
    .ok ⟨st.i, st.j, st.mask, r.1, r.2.1, r.2.2⟩
  | .other cls => .error ("Unrecognized layer: " ++ cls)

/-- The traversal loop over `cnn.children()`. -/
def buildLoop (content_layers style_layers : List String) :
    BuildState → List LayerTag → Except String BuildState
  | st, [] => .ok st
  | st, t :: rest =>
    match buildStep content_layers style_layers st t with
    | .error e => .error e
    | .ok st' => buildLoop content_layers style_layers st' rest

/-- Whether a module is a loss probe. -/
def isProbe : GModule → Bool
  | .contentProbe _ => true
  | .styleProbe _ => true
  | _ => false

/-- The trim of app.py lines 148-153: the loop scans indices from the top
down and breaks at the first probe, then keeps `model[:(i + 1)]`.
Equivalently: drop the maximal probe-free suffix (when the model contains
a probe), and keep only `model[:1]` when it contains none (the loop
variable then ends at 0). -/
def trimModel (m : List GModule) : List GModule :=
  if (m.filter isProbe) = [] then m.take 1
  else (m.reverse.dropWhile (fun x => !isProbe x)).reverse

/-- Embedding of `get_style_model_and_losses` (app.py lines 84-155),
restricted to the graph structure: run the traversal from the initial
state (`i = 1`, `j = 0`, the input mask, and the model holding only the
normalization module), then trim; returns the trimmed module list plus
the ordered style / content probe records. -/
def get_style_model_and_losses (layers : List LayerTag) (mask0 : MaskT)
    (content_layers style_layers : List String) :
    Except String (List GModule × List String × List String) :=
  match buildLoop content_layers style_layers
      ⟨1, 0, mask0, [GModule.norm], [], []⟩ layers with
  | .error e => .error e
  | .ok st => .ok (trimModel st.model, st.style_losses, st.content_losses)

/-- The number of pooling layers in a traversal prefix. -/
def poolCount (pre : List LayerTag) : ℕ :=
  pre.countP (fun t => t = LayerTag.pool)

/-- The canonical block index after a traversal prefix: 1 plus the number
of pooling layers crossed. -/
def blockIdx (pre : List LayerTag) : ℕ := 1 + poolCount pre

/-- The canonical in-block index after a traversal prefix: the number of
convolution layers crossed since the most recent pooling layer. -/
def convsSinceLastPool (pre : List LayerTag) : ℕ :=
  (pre.reverse.takeWhile (fun t => !(t = LayerTag.pool))).countP
    (fun t => t = LayerTag.conv)

/-- The canonical name `{type}{blockIndex}_{inBlockIndex}` of a layer in
terms of the traversal prefix `pre` before it: the block index is
1 + (pools in `pre`); the in-block index is the number of convolutions
since the last pool, incremented first when the layer itself is a
convolution; a pooling layer is named with the indices in force before
its own increment/reset. -/
def canonicalName (t : LayerTag) (pre : List LayerTag) : String :=
  match t with
  | .conv => "conv" ++ toString (blockIdx pre) ++ "_" ++
      toString (convsSinceLastPool pre + 1)
  | .relu => "relu" ++ toString (blockIdx pre) ++ "_" ++
      toString (convsSinceLastPool pre)
  | .pool => "pool" ++ toString (blockIdx pre) ++ "_" ++
      toString (convsSinceLastPool pre)
  | .bn => "bn" ++ toString (blockIdx pre) ++ "_" ++
      toString (convsSinceLastPool pre)
  | .other _ => ""

/-- The names of the feature-extractor layers of a module list, in order
(probes and the normalization module carry no layer name). -/
def layerNames (m : List GModule) : List String :=
  m.filterMap (fun x =>
    match x with
    | GModule.layer n _ => some n
    | _ => none)

/-- The canonical names of a run of layers given the traversal prefix
`pre` already crossed before the run. -/
def namesSpec : List LayerTag → List LayerTag → List String
  | _, [] => []
  | pre, t :: rest => canonicalName t pre :: namesSpec (pre ++ [t]) rest

/-- Guarded read of a feature-map entry at integer spatial coordinates:
the entry when the coordinates lie in `[0, H) × [0, W)` and zero
otherwise (reads are always guarded by the validity predicate below, so
the out-of-range value never contributes to a similarity). -/
def fget {K H W : ℕ} (F : Fin K → Fin H → Fin W → ℚ) (ch : Fin K)
    (a b : ℤ) : ℚ :=
  if h : 0 ≤ a ∧ a < (H : ℤ) ∧ 0 ≤ b ∧ b < (W : ℤ) then
    F ch ⟨a.toNat, by omega⟩ ⟨b.toNat, by omega⟩
  else 0

/-- The square window of patch offsets of half-width `rad` (patch size
`2·rad + 1`; app.py passes `patch_size = 3`, i.e. `rad = 1`). -/
def offsets (rad : ℕ) : Finset (ℤ × ℤ) :=
  Finset.Icc (-(rad : ℤ)) (rad : ℤ) ×ˢ Finset.Icc (-(rad : ℤ)) (rad : ℤ)

/-- Whether offset `ab` applied at spatial position `(a, b)` stays inside
an `H × W` feature map. -/
def validOff (H W : ℕ) (a b : ℤ) (ab : ℤ × ℤ) : Prop :=
  0 ≤ a + ab.1 ∧ a + ab.1 < (H : ℤ) ∧ 0 ≤ b + ab.2 ∧ b + ab.2 < (W : ℤ)

instance (H W : ℕ) (a b : ℤ) (ab : ℤ × ℤ) :
    Decidable (validOff H W a b ab) := by
  unfold validOff
  infer_instance

/-- Modelled from the spec (§4.2 edge policy): the patch offsets that are
valid simultaneously at the content position `(i, j)` and the style
candidate `(r, c)` — near boundaries the neighborhood is truncated to
what is available, never padded with artificial zeros. -/
def sharedOffsets (H W rad : ℕ) (i j r c : ℤ) : Finset (ℤ × ℤ) :=
  (offsets rad).filter (fun ab => validOff H W i j ab ∧ validOff H W r c ab)

/-- Dot product of the flattened channel-wise patch vectors of `A`
(anchored at `(ai, aj)`) and `B` (anchored at `(bi, bj)`) over a given
offset set. -/
def dotOver {K H W : ℕ} (V : Finset (ℤ × ℤ))
    (A B : Fin K → Fin H → Fin W → ℚ) (ai aj bi bj : ℤ) : ℚ :=
  ∑ ab ∈ V, ∑ ch, fget A ch (ai + ab.1) (aj + ab.2) *
    fget B ch (bi + ab.1) (bj + ab.2)

/-- Modelled from the spec: `models.cosine_similarity` is imported by
app.py but `models.py` is not among the sources.  §4.2: cosine similarity
of the flattened channel-wise patch vectors (content at `(i, j)`, style
candidate at `(r, c)`), i.e. their dot product after L2 normalization,
taken over the shared truncated window. -/
noncomputable def cosine_similarity {K H W : ℕ} (rad : ℕ)
    (C S : Fin K → Fin H → Fin W → ℚ) (i j r c : ℤ) : ℝ :=
  ((dotOver (sharedOffsets H W rad i j r c) C S i j r c : ℚ) : ℝ) /
    (Real.sqrt ((dotOver (sharedOffsets H W rad i j r c) C C i j i j : ℚ) : ℝ) *
      Real.sqrt ((dotOver (sharedOffsets H W rad i j r c) S S r c r c : ℚ) : ℝ))

/-- The rational selection score `d·|d| / (p·q)` (signed square of the
cosine similarity).  Since `x ↦ x·|x|` is strictly monotone, this score
orders candidates exactly as the cosine similarity does (proved below)
while staying rational-valued, hence computable. -/
def simScore {K H W : ℕ} (rad : ℕ) (C S : Fin K → Fin H → Fin W → ℚ)
    (i j r c : ℤ) : ℚ :=
  dotOver (sharedOffsets H W rad i j r c) C S i j r c *
      |dotOver (sharedOffsets H W rad i j r c) C S i j r c| /
    (dotOver (sharedOffsets H W rad i j r c) C C i j i j *
      dotOver (sharedOffsets H W rad i j r c) S S r c r c)

/-- The first (lowest) index in `[0, n)` attaining the maximal value of
`f`, and 0 when `n = 0`: the spec's tie-break is "the first-encountered
(lowest row-major index) best match". -/
def argmaxFirst (n : ℕ) (f : ℕ → ℚ) : ℕ :=
  ((List.range n).filter
    (fun k => decide (∀ k' ∈ Finset.range n, f k' ≤ f k))).headD 0

/-- Modelled from the spec: `models.patch_match` is imported by app.py but
`models.py` is not among the sources.  §4.2: produce a re-arranged style
map of the same shape where each spatial location `(i, j)` is copied from
the style location whose patch neighborhood is most similar (by cosine
similarity, ties broken toward the lowest row-major index) to the content
neighborhood at `(i, j)`.  Candidates are enumerated row-major as
`k = r·W + c`. -/
def patch_match {K H W : ℕ} (rad : ℕ)
    (C S : Fin K → Fin H → Fin W → ℚ) : Fin K → Fin H → Fin W → ℚ :=
  fun ch i j =>
    fget S ch
      (((argmaxFirst (H * W) (fun k =>
        simScore rad C S ((i : ℕ) : ℤ) ((j : ℕ) : ℤ)
          ((k / W : ℕ) : ℤ) ((k % W : ℕ) : ℤ))) / W : ℕ) : ℤ)
      (((argmaxFirst (H * W) (fun k =>
        simScore rad C S ((i : ℕ) : ℤ) ((j : ℕ) : ℤ)
          ((k / W : ℕ) : ℤ) ((k % W : ℕ) : ℤ))) % W : ℕ) : ℤ)

end Harmonization

namespace Harmonization

/-- C1 (counterexample): the claim "for a mask of all ones covering area A
the stored style target equals the unnormalized gram matrix divided by A"
fails on the code.  With 2 channels and a single spatial position, the
spatial mask `fun _ => 1` is all ones and covers area A = 1, but the
probe stores gram/2 (the mask is channel-expanded before `.sum()`, so the
divisor is C·A, not A): the stored entry is 1/2 while gram/A = 1. -/
theorem style_target_area_claim_false :
    (StyleLoss.init (fun (_ : Fin 2) (_ : Fin 1) => (1 : ℚ))
        (expand_as 2 (fun _ : Fin 1 => (1 : ℚ)))).target 0 0 ≠
      gram_matrix (fun (_ : Fin 2) (_ : Fin 1) => (1 : ℚ)) 0 0 / (1 : ℚ) := by
  simp only [StyleLoss.init, gram_matrix, maskSum, expand_as]
  norm_num [Fin.sum_univ_succ]

/-- C1 (amended): the frozen target of a Style Loss Probe equals the gram
matrix of the mask-weighted style feature divided by the sum of the
entries of the channel-expanded mask, i.e. by C times the spatial mass of
the spatial mask; in particular, for an all-ones spatial mask over N
spatial positions the target is the unnormalized gram matrix divided by
C·N (not by N alone). -/
theorem style_target_mass_normalized {C N : ℕ}
    (f : Fin C → Fin N → ℚ) (m : Fin N → ℚ) :
    ((StyleLoss.init f (expand_as C m)).target =
      fun a b =>
        gram_matrix (fun c n => f c n * m n) a b / ((C : ℚ) * ∑ n, m n)) ∧
    ((∀ n, m n = 1) →
      (StyleLoss.init f (expand_as C m)).target =
        fun a b => gram_matrix f a b / ((C : ℚ) * (N : ℚ))) := by
  have hsum : maskSum (expand_as C m) = (C : ℚ) * ∑ n, m n := by
    simp [maskSum, expand_as, Finset.sum_const, mul_comm]
  constructor
  · funext a b
    simp only [StyleLoss.init, expand_as, hsum]
  · intro hone
    funext a b
    simp only [StyleLoss.init, expand_as, hsum, gram_matrix, hone, mul_one]
    simp [Finset.sum_const]

/-- C1 (amended, witness): instantiation of the amended statement at the
counterexample input (2 channels, 1 spatial position, all-ones mask). -/
theorem style_target_mass_normalized_witness :
    (∀ n : Fin 1, (fun _ : Fin 1 => (1 : ℚ)) n = 1) ∧
    (StyleLoss.init (fun (_ : Fin 2) (_ : Fin 1) => (1 : ℚ))
        (expand_as 2 (fun _ : Fin 1 => (1 : ℚ)))).target =
      fun a b => gram_matrix (fun (_ : Fin 2) (_ : Fin 1) => (1 : ℚ)) a b /
        ((2 : ℚ) * (1 : ℚ)) :=
  ⟨fun _ => rfl,
    (style_target_mass_normalized (fun (_ : Fin 2) (_ : Fin 1) => (1 : ℚ))
      (fun _ : Fin 1 => (1 : ℚ))).2 (fun _ => rfl)⟩

/-- C6: if the live feature map agrees with the frozen target at every
position where the probe's mask is nonzero, then the recorded content
discrepancy is zero, regardless of the values outside the mask. -/
theorem content_loss_zero_inside_mask {C N : ℕ} (p : ContentLoss C N)
    (x : Fin C → Fin N → ℚ)
    (h : ∀ c n, p.mask c n ≠ 0 → x c n = p.target c n) :
    ((p.forward x).1).loss = 0 := by
  have hzero : ∀ c n, (x c n * p.mask c n - p.target c n * p.mask c n) ^ 2 = 0 := by
    intro c n
    by_cases hm : p.mask c n = 0
    · simp [hm]
    · rw [h c n hm]; ring
  simp only [ContentLoss.forward, mse_loss]
  rw [Finset.sum_eq_zero, zero_div]
  intro c _
  exact Finset.sum_eq_zero (fun n _ => hzero c n)

/-- C6 (witness): a concrete probe whose mask vanishes at position 1; the
live map differs from the target there (7 vs 9) yet the loss is zero. -/
theorem content_loss_zero_inside_mask_witness :
    (∀ (c : Fin 1) (n : Fin 2),
      (ContentLoss.mk (fun (_ : Fin 1) (n : Fin 2) => if n = 0 then (1 : ℚ) else 0)
          (fun (_ : Fin 1) (n : Fin 2) => if n = 0 then (3 : ℚ) else 9) 0).mask c n ≠ 0 →
      (fun (_ : Fin 1) (n : Fin 2) => if n = 0 then (3 : ℚ) else 7) c n =
      (ContentLoss.mk (fun (_ : Fin 1) (n : Fin 2) => if n = 0 then (1 : ℚ) else 0)
          (fun (_ : Fin 1) (n : Fin 2) => if n = 0 then (3 : ℚ) else 9) 0).target c n) ∧
    (((ContentLoss.mk (fun (_ : Fin 1) (n : Fin 2) => if n = 0 then (1 : ℚ) else 0)
          (fun (_ : Fin 1) (n : Fin 2) => if n = 0 then (3 : ℚ) else 9) 0).forward
        (fun (_ : Fin 1) (n : Fin 2) => if n = 0 then (3 : ℚ) else 7)).1).loss = 0 :=
  ⟨by decide,
    content_loss_zero_inside_mask
      (ContentLoss.mk (fun (_ : Fin 1) (n : Fin 2) => if n = 0 then (1 : ℚ) else 0)
        (fun (_ : Fin 1) (n : Fin 2) => if n = 0 then (3 : ℚ) else 9) 0)
      (fun (_ : Fin 1) (n : Fin 2) => if n = 0 then (3 : ℚ) else 7) (by decide)⟩

/-- C7: loss-probe targets are frozen.  A forward evaluation (the only
operation that updates probe state — it mutates only `self.loss`) leaves
the stored target and mask of both probe kinds unchanged; optimization
steps only re-run forward evaluations and update the image tensor, so no
step ever changes a stored target after construction. -/
theorem probe_targets_frozen {C N : ℕ} (p : ContentLoss C N)
    (x : Fin C → Fin N → ℚ) (q : StyleLoss C N) (y : Fin C → Fin N → ℚ) :
    ((p.forward x).1.target = p.target ∧ (p.forward x).1.mask = p.mask) ∧
    ((q.forward y).1.target = q.target ∧ (q.forward y).1.mask = q.mask) :=
  ⟨⟨rfl, rfl⟩, ⟨rfl, rfl⟩⟩

/-- C10: the forward evaluation of either probe returns its input tensor
unchanged (the discrepancy is only recorded as a side field), so probes
do not alter the features observed by downstream layers. -/
theorem probe_forward_identity {C N : ℕ} (p : ContentLoss C N)
    (x : Fin C → Fin N → ℚ) (q : StyleLoss C N) (y : Fin C → Fin N → ℚ) :
    (p.forward x).2 = x ∧ (q.forward y).2 = y :=
  ⟨rfl, rfl⟩

/-- C2: mask propagation by layer kind.  Crossing a convolution applies the
3×3 average smoothing with stride 1 and padding 1 and keeps the spatial
size unchanged; crossing a pooling layer applies the area/averaging
factor-0.5 downsample and exactly halves each spatial dimension (floor
rounding); crossing an activation or normalization layer is the
identity. -/
theorem mask_propagation_per_layer (M : MaskT) (hh : 1 ≤ M.h) (hw : 1 ≤ M.w) :
    propagateMask LayerTag.conv M = avg_pool2d 3 1 1 M ∧
    (propagateMask LayerTag.conv M).h = M.h ∧
    (propagateMask LayerTag.conv M).w = M.w ∧
    propagateMask LayerTag.pool M = downsampling M ∧
    (propagateMask LayerTag.pool M).h = M.h / 2 ∧
    (propagateMask LayerTag.pool M).w = M.w / 2 ∧
    propagateMask LayerTag.relu M = M ∧
    propagateMask LayerTag.bn M = M := by
  refine ⟨rfl, ?_, ?_, rfl, rfl, rfl, rfl, rfl⟩
  · simp only [propagateMask, avg_pool2d]
    omega
  · simp only [propagateMask, avg_pool2d]
    omega

/-- C2 (witness): the propagation behavior instantiated on a concrete 2×2
all-ones mask. -/
theorem mask_propagation_per_layer_witness :
    1 ≤ (MaskT.mk 2 2 fun _ _ => (1 : ℚ)).h ∧
    1 ≤ (MaskT.mk 2 2 fun _ _ => (1 : ℚ)).w ∧
    ((propagateMask LayerTag.conv (MaskT.mk 2 2 fun _ _ => (1 : ℚ))).h =
      (MaskT.mk 2 2 fun _ _ => (1 : ℚ)).h ∧
     (propagateMask LayerTag.pool (MaskT.mk 2 2 fun _ _ => (1 : ℚ))).h =
      (MaskT.mk 2 2 fun _ _ => (1 : ℚ)).h / 2 ∧
     propagateMask LayerTag.relu (MaskT.mk 2 2 fun _ _ => (1 : ℚ)) =
      MaskT.mk 2 2 fun _ _ => (1 : ℚ)) :=
  ⟨by decide, by decide,
    ((mask_propagation_per_layer (MaskT.mk 2 2 fun _ _ => (1 : ℚ))
        (by decide) (by decide)).2.1),
    ((mask_propagation_per_layer (MaskT.mk 2 2 fun _ _ => (1 : ℚ))
        (by decide) (by decide)).2.2.2.2.1),
    ((mask_propagation_per_layer (MaskT.mk 2 2 fun _ _ => (1 : ℚ))
        (by decide) (by decide)).2.2.2.2.2.2.1)⟩

/-- C5: with an all-zero input mask the softened mask (any finite-kernel
blur of the raw mask, rescaled by 255) is identically zero, so the final
blend `tmask * output + (1 - tmask) * style` collapses to the style image
at every pixel, for every optimizer output (hence independently of the
number of optimizer iterations). -/
theorem zero_mask_blend_is_style (R : ℕ) (w raw output style : ℤ → ℤ → ℚ)
    (hzero : ∀ i j, raw i j = 0) :
    ∀ i j, final_blend (soft_mask R w raw) output style i j = style i j := by
  intro i j
  have hg : gaussian_filter R w raw i j = 0 := by
    simp [gaussian_filter, hzero]
  simp [final_blend, soft_mask, hg]

/-- C5 (witness): the blend of a constant-7 optimizer output with a
constant-5 style image under the all-zero mask yields the style value. -/
theorem zero_mask_blend_is_style_witness :
    (∀ i j : ℤ, (fun (_ : ℤ) (_ : ℤ) => (0 : ℚ)) i j = 0) ∧
    final_blend
      (soft_mask 1 (fun (_ : ℤ) (_ : ℤ) => (1 : ℚ)) (fun (_ : ℤ) (_ : ℤ) => (0 : ℚ)))
      (fun (_ : ℤ) (_ : ℤ) => (7 : ℚ)) (fun (_ : ℤ) (_ : ℤ) => (5 : ℚ)) 0 0 =
    (fun (_ : ℤ) (_ : ℤ) => (5 : ℚ)) 0 0 :=
  ⟨fun _ _ => rfl,
    zero_mask_blend_is_style 1 (fun _ _ => (1 : ℚ)) (fun _ _ => (0 : ℚ))
      (fun _ _ => (7 : ℚ)) (fun _ _ => (5 : ℚ)) (fun _ _ => rfl) 0 0⟩

/-- Helper: a trimmed model that still contains a probe ends with a probe
(the trim keeps everything up to and including the last probe). -/
theorem trimModel_ends_with_probe (m : List GModule)
    (hp : ∃ x ∈ trimModel m, isProbe x = true) :
    ∃ h : trimModel m ≠ [], isProbe ((trimModel m).getLast h) = true := by
  obtain ⟨x, hx, hpx⟩ := hp
  by_cases hf : (m.filter isProbe) = []
  · exfalso
    have hxm : x ∈ m := by
      have ht : trimModel m = m.take 1 := by simp [trimModel, hf]
      exact List.mem_of_mem_take (ht ▸ hx)
    have hmem : x ∈ m.filter isProbe := List.mem_filter.2 ⟨hxm, hpx⟩
    rw [hf] at hmem
    exact List.not_mem_nil x hmem
  · have htrim : trimModel m = m.rdropWhile (fun y => !isProbe y) := by
      simp only [trimModel, if_neg hf, List.rdropWhile]
    have hne : trimModel m ≠ [] := by
      intro h0
      rw [h0] at hx
      exact List.not_mem_nil x hx
    refine ⟨hne, ?_⟩
    have hne' : m.rdropWhile (fun y => !isProbe y) ≠ [] := htrim ▸ hne
    have hlast := List.rdropWhile_last_not (fun y => !isProbe y) m hne'
    simp only [Bool.not_eq_true', Bool.not_eq_false] at hlast
    have hgl : (trimModel m).getLast hne =
        (m.rdropWhile (fun y => !isProbe y)).getLast hne' := by
      congr 1
    rw [hgl]
    exact hlast

/-- C4: after graph construction succeeds, the returned model contains no
module positioned strictly after the last loss probe: whenever the model
contains a probe at all, every position of the model is followed (at or
after it) by a probe — equivalently, everything beyond the last probe was
trimmed off. -/
theorem model_trimmed_after_last_probe (layers : List LayerTag)
    (mask0 : MaskT) (cl sl : List String)
    (M : List GModule) (SL CL : List String)
    (hok : get_style_model_and_losses layers mask0 cl sl = .ok (M, SL, CL))
    (hprobe : ∃ x ∈ M, isProbe x = true) :
    ∀ k, k < M.length →
      ∃ k', k ≤ k' ∧ ∃ h : k' < M.length, isProbe (M.get ⟨k', h⟩) = true := by
  have hM : ∃ st : BuildState, M = trimModel st.model := by
    unfold get_style_model_and_losses at hok
    cases hbl : buildLoop cl sl ⟨1, 0, mask0, [GModule.norm], [], []⟩ layers with
    | error e => rw [hbl] at hok; exact absurd hok (by simp)
    | ok st =>
      rw [hbl] at hok
      refine ⟨st, ?_⟩
      have hinj : (trimModel st.model, st.style_losses, st.content_losses) =
          (M, SL, CL) := by
        exact Except.ok.inj hok
      exact (congrArg Prod.fst hinj).symm
  obtain ⟨st, hMst⟩ := hM
  subst hMst
  obtain ⟨hne, hlast⟩ := trimModel_ends_with_probe st.model hprobe
  intro k hk
  have hlen : 0 < (trimModel st.model).length := List.length_pos.2 hne
  refine ⟨(trimModel st.model).length - 1, by omega, by omega, ?_⟩
  have hgl := List.getLast_eq_getElem (trimModel st.model) hne
  rw [hgl] at hlast
  simpa using hlast

/-- C4 (witness): a concrete successful construction — one convolution
followed by a ReLU registered as a content layer — whose returned model
contains a probe; every index is followed by a probe at or after it. -/
theorem model_trimmed_after_last_probe_witness :
    get_style_model_and_losses [LayerTag.conv, LayerTag.relu]
        (MaskT.mk 2 2 fun _ _ => (1 : ℚ)) ["relu1_1"] [] =
      .ok ([GModule.norm, GModule.layer "conv1_1" LayerTag.conv,
            GModule.layer "relu1_1" LayerTag.relu,
            GModule.contentProbe "content_loss1_1"], [], ["relu1_1"]) ∧
    (∃ x ∈ [GModule.norm, GModule.layer "conv1_1" LayerTag.conv,
            GModule.layer "relu1_1" LayerTag.relu,
            GModule.contentProbe "content_loss1_1"], isProbe x = true) ∧
    ∀ k, k < [GModule.norm, GModule.layer "conv1_1" LayerTag.conv,
            GModule.layer "relu1_1" LayerTag.relu,
            GModule.contentProbe "content_loss1_1"].length →
      ∃ k', k ≤ k' ∧ ∃ h : k' < [GModule.norm,
            GModule.layer "conv1_1" LayerTag.conv,
            GModule.layer "relu1_1" LayerTag.relu,
            GModule.contentProbe "content_loss1_1"].length,
        isProbe ([GModule.norm, GModule.layer "conv1_1" LayerTag.conv,
            GModule.layer "relu1_1" LayerTag.relu,
            GModule.contentProbe "content_loss1_1"].get ⟨k', h⟩) = true := by
  refine ⟨by rfl, ⟨GModule.contentProbe "content_loss1_1", by simp, rfl⟩, ?_⟩
  exact model_trimmed_after_last_probe [LayerTag.conv, LayerTag.relu]
    (MaskT.mk 2 2 fun _ _ => (1 : ℚ)) ["relu1_1"] [] _ _ _ (by rfl)
    ⟨GModule.contentProbe "content_loss1_1", by simp, rfl⟩

/-- Helper: a traversal whose remaining layer list contains an
unrecognized layer always fails. -/
theorem buildLoop_error_of_other (cl sl : List String) :
    ∀ (layers : List LayerTag) (st : BuildState),
      (∃ cls, LayerTag.other cls ∈ layers) →
      ∃ msg, buildLoop cl sl st layers = .error msg := by
  intro layers
  induction layers with
  | nil =>
    intro st h
    obtain ⟨cls, hmem⟩ := h
    exact absurd hmem (List.not_mem_nil _)
  | cons t rest ih =>
    intro st h
    obtain ⟨cls, hmem⟩ := h
    cases t with
    | other c => exact ⟨"Unrecognized layer: " ++ c, rfl⟩
    | conv =>
      have hrest : LayerTag.other cls ∈ rest := by
        rcases List.mem_cons.1 hmem with h1 | h1
        · exact absurd h1 (by simp)
        · exact h1
      simpa only [buildLoop, buildStep] using ih _ ⟨cls, hrest⟩
    | relu =>
      have hrest : LayerTag.other cls ∈ rest := by
        rcases List.mem_cons.1 hmem with h1 | h1
        · exact absurd h1 (by simp)
        · exact h1
      simpa only [buildLoop, buildStep] using ih _ ⟨cls, hrest⟩
    | pool =>
      have hrest : LayerTag.other cls ∈ rest := by
        rcases List.mem_cons.1 hmem with h1 | h1
        · exact absurd h1 (by simp)
        · exact h1
      simpa only [buildLoop, buildStep] using ih _ ⟨cls, hrest⟩
    | bn =>
      have hrest : LayerTag.other cls ∈ rest := by
        rcases List.mem_cons.1 hmem with h1 | h1
        · exact absurd h1 (by simp)
        · exact h1
      simpa only [buildLoop, buildStep] using ih _ ⟨cls, hrest⟩

/-- C9: when the feature extractor contains any layer that is not a
convolution, ReLU, pooling or batch-normalization layer, graph
construction aborts with the fatal `Unrecognized layer` error and no
graph is produced. -/
theorem unrecognized_layer_aborts (layers : List LayerTag) (mask0 : MaskT)
    (cl sl : List String) (h : ∃ cls, LayerTag.other cls ∈ layers) :
    ∃ msg, get_style_model_and_losses layers mask0 cl sl = .error msg := by
  obtain ⟨msg, hmsg⟩ :=
    buildLoop_error_of_other cl sl layers ⟨1, 0, mask0, [GModule.norm], [], []⟩ h
  exact ⟨msg, by simp [get_style_model_and_losses, hmsg]⟩

/-- Helper: appending a non-pooling layer to the prefix leaves the block
index unchanged. -/
theorem blockIdx_append_nonpool (pre : List LayerTag) (t : LayerTag)
    (h : t ≠ LayerTag.pool) : blockIdx (pre ++ [t]) = blockIdx pre := by
  simp [blockIdx, poolCount, List.countP_append, List.countP_cons, h]

/-- Helper: appending a pooling layer increments the block index. -/
theorem blockIdx_append_pool (pre : List LayerTag) :
    blockIdx (pre ++ [LayerTag.pool]) = blockIdx pre + 1 := by
  simp [blockIdx, poolCount, List.countP_append, List.countP_cons]
  omega

/-- Helper: appending a convolution increments the in-block index. -/
theorem convsSinceLastPool_append_conv (pre : List LayerTag) :
    convsSinceLastPool (pre ++ [LayerTag.conv]) =
      convsSinceLastPool pre + 1 := by
  simp [convsSinceLastPool, List.reverse_append, List.takeWhile_cons,
    List.countP_cons]

/-- Helper: appending a pooling layer resets the in-block index. -/
theorem convsSinceLastPool_append_pool (pre : List LayerTag) :
    convsSinceLastPool (pre ++ [LayerTag.pool]) = 0 := by
  simp [convsSinceLastPool, List.reverse_append, List.takeWhile_cons]

/-- Helper: appending a ReLU leaves the in-block index unchanged. -/
theorem convsSinceLastPool_append_relu (pre : List LayerTag) :
    convsSinceLastPool (pre ++ [LayerTag.relu]) = convsSinceLastPool pre := by
  simp [convsSinceLastPool, List.reverse_append, List.takeWhile_cons,
    List.countP_cons]

/-- Helper: appending a batch-normalization layer leaves the in-block
index unchanged. -/
theorem convsSinceLastPool_append_bn (pre : List LayerTag) :
    convsSinceLastPool (pre ++ [LayerTag.bn]) = convsSinceLastPool pre := by
  simp [convsSinceLastPool, List.reverse_append, List.takeWhile_cons,
    List.countP_cons]

/-- Helper: probe insertion never adds a named layer module. -/
theorem layerNames_addProbes (cl sl : List String) (i j : ℕ)
    (name : String) (model : List GModule) (c s : List String) :
    layerNames (addProbes cl sl i j name model c s).1 = layerNames model := by
  unfold addProbes layerNames
  by_cases h1 : name ∈ cl <;> by_cases h2 : name ∈ sl <;>
    simp [h1, h2, List.filterMap_append]

/-- Helper: appending a named layer module appends its name. -/
theorem layerNames_append_layer (m : List GModule) (n : String)
    (t : LayerTag) :
    layerNames (m ++ [GModule.layer n t]) = layerNames m ++ [n] := by
  simp [layerNames, List.filterMap_append]

/-- Helper: the convolution step succeeds, keeps the block counter,
increments the in-block counter, and appends exactly one layer named from
the pre-step counters. -/
theorem buildStep_conv (cl sl : List String) (st : BuildState) :
    ∃ st1 : BuildState, buildStep cl sl st LayerTag.conv = .ok st1 ∧
      st1.i = st.i ∧ st1.j = st.j + 1 ∧
      layerNames st1.model = layerNames st.model ++
        ["conv" ++ toString st.i ++ "_" ++ toString (st.j + 1)] := by
  refine ⟨_, rfl, rfl, rfl, ?_⟩
  rw [layerNames_addProbes, layerNames_append_layer]

/-- Helper: the ReLU step succeeds, keeps both counters, and appends one
layer named from the current counters. -/
theorem buildStep_relu (cl sl : List String) (st : BuildState) :
    ∃ st1 : BuildState, buildStep cl sl st LayerTag.relu = .ok st1 ∧
      st1.i = st.i ∧ st1.j = st.j ∧
      layerNames st1.model = layerNames st.model ++
        ["relu" ++ toString st.i ++ "_" ++ toString st.j] := by
  refine ⟨_, rfl, rfl, rfl, ?_⟩
  rw [layerNames_addProbes, layerNames_append_layer]

/-- Helper: the pooling step succeeds, increments the block counter,
resets the in-block counter, and appends one layer named from the
pre-step counters. -/
theorem buildStep_pool (cl sl : List String) (st : BuildState) :
    ∃ st1 : BuildState, buildStep cl sl st LayerTag.pool = .ok st1 ∧
      st1.i = st.i + 1 ∧ st1.j = 0 ∧
      layerNames st1.model = layerNames st.model ++
        ["pool" ++ toString st.i ++ "_" ++ toString st.j] := by
  refine ⟨_, rfl, rfl, rfl, ?_⟩
  rw [layerNames_addProbes, layerNames_append_layer]

/-- Helper: the batch-normalization step succeeds, keeps both counters,
and appends one layer named from the current counters. -/
theorem buildStep_bn (cl sl : List String) (st : BuildState) :
    ∃ st1 : BuildState, buildStep cl sl st LayerTag.bn = .ok st1 ∧
      st1.i = st.i ∧ st1.j = st.j ∧
      layerNames st1.model = layerNames st.model ++
        ["bn" ++ toString st.i ++ "_" ++ toString st.j] := by
  refine ⟨_, rfl, rfl, rfl, ?_⟩
  rw [layerNames_addProbes, layerNames_append_layer]

/-- Helper: a successful traversal from a state whose counters agree with
the canonical indices of the prefix `pre` appends exactly the canonical
names of the remaining layers. -/
theorem buildLoop_layerNames (cl sl : List String) :
    ∀ (layers pre : List LayerTag) (st st' : BuildState),
      st.i = blockIdx pre → st.j = convsSinceLastPool pre →
      buildLoop cl sl st layers = .ok st' →
      layerNames st'.model = layerNames st.model ++ namesSpec pre layers := by
  intro layers
  induction layers with
  | nil =>
    intro pre st st' hi hj hok
    have hst : st = st' := Except.ok.inj hok
    subst hst
    simp [namesSpec]
  | cons t rest ih =>
    intro pre st st' hi hj hok
    cases t with
    | conv =>
      obtain ⟨st1, hs, hi1, hj1, hn1⟩ := buildStep_conv cl sl st
      have hok' : buildLoop cl sl st1 rest = .ok st' := by
        simpa only [buildLoop, hs] using hok
      have hmain := ih (pre ++ [LayerTag.conv]) st1 st'
        (by rw [hi1, hi, blockIdx_append_nonpool pre LayerTag.conv (by simp)])
        (by rw [hj1, hj, convsSinceLastPool_append_conv])
        hok'
      rw [hmain, hn1, namesSpec, canonicalName, ← hi, ← hj]
      simp [List.append_assoc]
    | relu =>
      obtain ⟨st1, hs, hi1, hj1, hn1⟩ := buildStep_relu cl sl st
      have hok' : buildLoop cl sl st1 rest = .ok st' := by
        simpa only [buildLoop, hs] using hok
      have hmain := ih (pre ++ [LayerTag.relu]) st1 st'
        (by rw [hi1, hi, blockIdx_append_nonpool pre LayerTag.relu (by simp)])
        (by rw [hj1, hj, convsSinceLastPool_append_relu])
        hok'
      rw [hmain, hn1, namesSpec, canonicalName, ← hi, ← hj]
      simp [List.append_assoc]
    | pool =>
      obtain ⟨st1, hs, hi1, hj1, hn1⟩ := buildStep_pool cl sl st
      have hok' : buildLoop cl sl st1 rest = .ok st' := by
        simpa only [buildLoop, hs] using hok
      have hmain := ih (pre ++ [LayerTag.pool]) st1 st'
        (by rw [hi1, hi, blockIdx_append_pool])
        (by rw [hj1, convsSinceLastPool_append_pool])
        hok'
      rw [hmain, hn1, namesSpec, canonicalName, ← hi, ← hj]
      simp [List.append_assoc]
    | bn =>
      obtain ⟨st1, hs, hi1, hj1, hn1⟩ := buildStep_bn cl sl st
      have hok' : buildLoop cl sl st1 rest = .ok st' := by
        simpa only [buildLoop, hs] using hok
      have hmain := ih (pre ++ [LayerTag.bn]) st1 st'
        (by rw [hi1, hi, blockIdx_append_nonpool pre LayerTag.bn (by simp)])
        (by rw [hj1, hj, convsSinceLastPool_append_bn])
        hok'
      rw [hmain, hn1, namesSpec, canonicalName, ← hi, ← hj]
      simp [List.append_assoc]
    | other c =>
      exact absurd hok (by simp [buildLoop, buildStep])

/-- Helper: the recursive name specification coincides with the direct
per-index formula `canonicalName (layers[k]) (prefix before k)`. -/
theorem namesSpec_eq_map :
    ∀ (rest pre : List LayerTag),
      namesSpec pre rest = (List.range rest.length).map
        (fun k => canonicalName (rest.getD k (LayerTag.other ""))
          (pre ++ rest.take k)) := by
  intro rest
  induction rest with
  | nil => intro pre; simp [namesSpec]
  | cons t rs ih =>
    intro pre
    rw [namesSpec, List.length_cons, List.range_succ_eq_map, List.map_cons,
      List.map_map]
    congr 1
    · simp
    · rw [ih (pre ++ [t])]
      apply List.map_congr_left
      intro k _
      simp [List.take_succ_cons, List.append_assoc]

/-- C8: every layer appended during a successful traversal receives the
canonical name `{type}{blockIndex}_{inBlockIndex}`: for each position `k`
of the layer list, the `k`-th appended layer module is named by
`canonicalName` of its tag and the prefix of layers before it, where the
block index is 1 plus the number of pooling layers crossed and the
in-block index is the number of convolutions since the last pooling layer
(incremented first for a convolution itself). -/
theorem canonical_layer_names (layers : List LayerTag) (mask0 : MaskT)
    (cl sl : List String) (st' : BuildState)
    (hok : buildLoop cl sl ⟨1, 0, mask0, [GModule.norm], [], []⟩ layers =
      .ok st') :
    layerNames st'.model = (List.range layers.length).map
      (fun k => canonicalName (layers.getD k (LayerTag.other ""))
        (layers.take k)) := by
  have h0 := buildLoop_layerNames cl sl layers []
    ⟨1, 0, mask0, [GModule.norm], [], []⟩ st' rfl rfl hok
  rw [h0]
  have h1 : layerNames [GModule.norm] = [] := rfl
  rw [h1, List.nil_append, namesSpec_eq_map]
  simp

/-- C8 (witness): an explicit four-layer traversal (conv, relu, pool,
conv) with the default layer registrations; the produced layer names are
exactly the canonical ones. -/
theorem canonical_layer_names_witness :
    ∃ st' : BuildState,
      buildLoop ["relu4_1"] ["relu3_1", "relu4_1", "relu5_1"]
        ⟨1, 0, MaskT.mk 2 2 fun _ _ => (1 : ℚ), [GModule.norm], [], []⟩
        [LayerTag.conv, LayerTag.relu, LayerTag.pool, LayerTag.conv] =
        .ok st' ∧
      layerNames st'.model =
        (List.range [LayerTag.conv, LayerTag.relu, LayerTag.pool,
          LayerTag.conv].length).map
          (fun k => canonicalName
            ([LayerTag.conv, LayerTag.relu, LayerTag.pool,
              LayerTag.conv].getD k (LayerTag.other ""))
            ([LayerTag.conv, LayerTag.relu, LayerTag.pool,
              LayerTag.conv].take k)) := by
  refine ⟨_, rfl, ?_⟩
  exact canonical_layer_names
    [LayerTag.conv, LayerTag.relu, LayerTag.pool, LayerTag.conv]
    (MaskT.mk 2 2 fun _ _ => (1 : ℚ)) ["relu4_1"]
    ["relu3_1", "relu4_1", "relu5_1"] _ rfl

/-- Helper: a patch self-dot-product is a sum of squares, hence
nonnegative. -/
theorem dotOver_self_nonneg {K H W : ℕ} (V : Finset (ℤ × ℤ))
    (A : Fin K → Fin H → Fin W → ℚ) (ai aj : ℤ) :
    0 ≤ dotOver V A A ai aj ai aj := by
  refine Finset.sum_nonneg fun ab _ => Finset.sum_nonneg fun ch _ => ?_
  exact mul_self_nonneg _

/-- Helper: `x ↦ x·|x|` is strictly monotone on ℝ. -/
theorem mulAbs_strictMono : StrictMono (fun x : ℝ => x * |x|) := by
  intro x y hxy
  rcases le_or_lt 0 x with hx | hx
  · have hy : 0 < y := lt_of_le_of_lt hx hxy
    simp only [abs_of_nonneg hx, abs_of_pos hy]
    exact mul_self_lt_mul_self hx hxy
  · rcases le_or_lt 0 y with hy | hy
    · have h1 : x * |x| < 0 := by
        rw [abs_of_neg hx]
        nlinarith
      have h2 : 0 ≤ y * |y| := by
        rw [abs_of_nonneg hy]
        exact mul_self_nonneg y
      exact lt_of_lt_of_le h1 h2
    · simp only [abs_of_neg hx, abs_of_neg hy]
      have h0 : (0 : ℝ) ≤ -y := by linarith
      have h3 := mul_self_lt_mul_self h0 (neg_lt_neg hxy)
      nlinarith

/-- Helper: the rational selection score is the image of the cosine
similarity under the strictly monotone map `x ↦ x·|x|`. -/
theorem simScore_cast_eq {K H W : ℕ} (rad : ℕ)
    (C S : Fin K → Fin H → Fin W → ℚ) (i j r c : ℤ) :
    ((simScore rad C S i j r c : ℚ) : ℝ) =
      cosine_similarity rad C S i j r c *
        |cosine_similarity rad C S i j r c| := by
  have hp : (0 : ℝ) ≤
      ((dotOver (sharedOffsets H W rad i j r c) C C i j i j : ℚ) : ℝ) := by
    exact_mod_cast dotOver_self_nonneg (sharedOffsets H W rad i j r c) C i j
  have hq : (0 : ℝ) ≤
      ((dotOver (sharedOffsets H W rad i j r c) S S r c r c : ℚ) : ℝ) := by
    exact_mod_cast dotOver_self_nonneg (sharedOffsets H W rad i j r c) S r c
  simp only [simScore, cosine_similarity]
  push_cast
  rw [abs_div, abs_mul, abs_of_nonneg (Real.sqrt_nonneg _),
    abs_of_nonneg (Real.sqrt_nonneg _), div_mul_div_comm, mul_mul_mul_comm,
    Real.mul_self_sqrt hp, Real.mul_self_sqrt hq]

/-- Helper: the rational selection score orders style candidates exactly
as the cosine similarity does. -/
theorem simScore_le_iff {K H W : ℕ} (rad : ℕ)
    (C S : Fin K → Fin H → Fin W → ℚ) (i j r c r' c' : ℤ) :
    simScore rad C S i j r' c' ≤ simScore rad C S i j r c ↔
      cosine_similarity rad C S i j r' c' ≤
        cosine_similarity rad C S i j r c := by
  constructor
  · intro h
    have hcast : ((simScore rad C S i j r' c' : ℚ) : ℝ) ≤
        ((simScore rad C S i j r c : ℚ) : ℝ) := by exact_mod_cast h
    rw [simScore_cast_eq, simScore_cast_eq] at hcast
    exact mulAbs_strictMono.le_iff_le.1 hcast
  · intro h
    have hcast : ((simScore rad C S i j r' c' : ℚ) : ℝ) ≤
        ((simScore rad C S i j r c : ℚ) : ℝ) := by
      rw [simScore_cast_eq, simScore_cast_eq]
      exact mulAbs_strictMono.le_iff_le.2 h
    exact_mod_cast hcast

/-- Helper: for `0 < n`, `argmaxFirst n f` is an index below `n` at which
`f` attains its maximum over `[0, n)`. -/
theorem argmaxFirst_spec (n : ℕ) (f : ℕ → ℚ) (hn : 0 < n) :
    argmaxFirst n f < n ∧ ∀ k, k < n → f k ≤ f (argmaxFirst n f) := by
  obtain ⟨b, hb, hmaxb⟩ := Finset.exists_max_image (Finset.range n) f
    ⟨0, Finset.mem_range.2 hn⟩
  have hmemlist : b ∈ (List.range n).filter
      (fun k => decide (∀ k' ∈ Finset.range n, f k' ≤ f k)) := by
    rw [List.mem_filter]
    exact ⟨List.mem_range.2 (Finset.mem_range.1 hb),
      decide_eq_true (fun k' hk' => hmaxb k' hk')⟩
  cases hfl : (List.range n).filter
      (fun k => decide (∀ k' ∈ Finset.range n, f k' ≤ f k)) with
  | nil =>
    rw [hfl] at hmemlist
    exact absurd hmemlist (List.not_mem_nil b)
  | cons x xs =>
    have hx : argmaxFirst n f = x := by
      rw [argmaxFirst, hfl]
      exact List.headD_cons
    have hxmem : x ∈ (List.range n).filter
        (fun k => decide (∀ k' ∈ Finset.range n, f k' ≤ f k)) := by
      rw [hfl]
      exact List.mem_cons_self x xs
    rw [List.mem_filter] at hxmem
    obtain ⟨hxr, hxp⟩ := hxmem
    refine ⟨?_, ?_⟩
    · rw [hx]
      exact List.mem_range.1 hxr
    · intro k hk
      rw [hx]
      exact of_decide_eq_true hxp k (Finset.mem_range.2 hk)

/-- Helper: a guarded read at in-range natural coordinates is a plain
read. -/
theorem fget_natCast {K H W : ℕ} (F : Fin K → Fin H → Fin W → ℚ)
    (ch : Fin K) (a b : ℕ) (ha : a < H) (hb : b < W) :
    fget F ch (a : ℤ) (b : ℤ) = F ch ⟨a, ha⟩ ⟨b, hb⟩ := by
  have hcond : 0 ≤ (a : ℤ) ∧ (a : ℤ) < (H : ℤ) ∧
      0 ≤ (b : ℤ) ∧ (b : ℤ) < (W : ℤ) := by
    refine ⟨Int.natCast_nonneg a, ?_, Int.natCast_nonneg b, ?_⟩ <;> omega
  rw [fget, dif_pos hcond]
  simp [Int.toNat_natCast]

/-- C3: patch matching is a pure selection over style-map spatial
locations: for equal-shaped content and style maps, the output vector at
every spatial position `(i, j)` is exactly the style map's channel vector
at some spatial location `(r, c)` (no interpolation or blending), and
that location attains the highest cosine similarity between its patch
neighborhood in the style map and the content neighborhood at `(i, j)`
over all candidate locations. -/
theorem patch_match_selects_best_style_location {K H W : ℕ} (rad : ℕ)
    (C S : Fin K → Fin H → Fin W → ℚ) (i : Fin H) (j : Fin W) :
    ∃ (r : Fin H) (c : Fin W),
      (∀ ch, patch_match rad C S ch i j = S ch r c) ∧
      ∀ (r' : Fin H) (c' : Fin W),
        cosine_similarity rad C S ((i : ℕ) : ℤ) ((j : ℕ) : ℤ)
            ((r' : ℕ) : ℤ) ((c' : ℕ) : ℤ) ≤
          cosine_similarity rad C S ((i : ℕ) : ℤ) ((j : ℕ) : ℤ)
            ((r : ℕ) : ℤ) ((c : ℕ) : ℤ) := by
  have hW : 0 < W := j.pos
  have hH : 0 < H := i.pos
  have hn : 0 < H * W := Nat.mul_pos hH hW
  set f := fun k => simScore rad C S ((i : ℕ) : ℤ) ((j : ℕ) : ℤ)
    ((k / W : ℕ) : ℤ) ((k % W : ℕ) : ℤ) with hf
  obtain ⟨hlt, hmax⟩ := argmaxFirst_spec (H * W) f hn
  set b := argmaxFirst (H * W) f with hb
  have hdivlt : b / W < H := (Nat.div_lt_iff_lt_mul hW).2 hlt
  have hmodlt : b % W < W := Nat.mod_lt b hW
  refine ⟨⟨b / W, hdivlt⟩, ⟨b % W, hmodlt⟩, fun ch => ?_, fun r' c' => ?_⟩
  · exact fget_natCast S ch (b / W) (b % W) hdivlt hmodlt
  · have hk' : (r' : ℕ) * W + (c' : ℕ) < H * W := by
      calc (r' : ℕ) * W + (c' : ℕ) < (r' : ℕ) * W + W := by
            have := c'.isLt
            omega
        _ = ((r' : ℕ) + 1) * W := by ring
        _ ≤ H * W := Nat.mul_le_mul_right W r'.isLt
    have h1 := hmax ((r' : ℕ) * W + (c' : ℕ)) hk'
    have hdiv : ((r' : ℕ) * W + (c' : ℕ)) / W = (r' : ℕ) := by
      rw [add_comm, Nat.add_mul_div_right _ _ hW,
        Nat.div_eq_of_lt c'.isLt, zero_add]
    have hmod : ((r' : ℕ) * W + (c' : ℕ)) % W = (c' : ℕ) := by
      rw [add_comm, Nat.add_mul_mod_self_right,
        Nat.mod_eq_of_lt c'.isLt]
    have h2 : f ((r' : ℕ) * W + (c' : ℕ)) =
        simScore rad C S ((i : ℕ) : ℤ) ((j : ℕ) : ℤ)
          ((r' : ℕ) : ℤ) ((c' : ℕ) : ℤ) := by
      rw [hf]
      simp only []
      rw [hdiv, hmod]
    have h3 : f b = simScore rad C S ((i : ℕ) : ℤ) ((j : ℕ) : ℤ)
        ((b / W : ℕ) : ℤ) ((b % W : ℕ) : ℤ) := by rw [hf]
    rw [h2, h3] at h1
    exact (simScore_le_iff rad C S ((i : ℕ) : ℤ) ((j : ℕ) : ℤ)
      ((b / W : ℕ) : ℤ) ((b % W : ℕ) : ℤ)
      ((r' : ℕ) : ℤ) ((c' : ℕ) : ℤ)).1 h1

/-- C9 (witness): a dropout layer in second position aborts construction. -/
theorem unrecognized_layer_aborts_witness :
    (∃ cls, LayerTag.other cls ∈ [LayerTag.conv, LayerTag.other "Dropout"]) ∧
    ∃ msg, get_style_model_and_losses [LayerTag.conv, LayerTag.other "Dropout"]
      (MaskT.mk 2 2 fun _ _ => (1 : ℚ)) ["relu4_1"]
      ["relu3_1", "relu4_1", "relu5_1"] = .error msg :=
  ⟨⟨"Dropout", by simp⟩,
    unrecognized_layer_aborts [LayerTag.conv, LayerTag.other "Dropout"]
      (MaskT.mk 2 2 fun _ _ => (1 : ℚ)) ["relu4_1"]
      ["relu3_1", "relu4_1", "relu5_1"] ⟨"Dropout", by simp⟩⟩

end Harmonization
